import Mathlib

/-!
# A verification development for the zap serialization and RPC core

The repository's documentation describes a zero-copy, schema-defined
serialization format (segmented messages, wire pointers, flat and packed
codecs, reader/builder views) and an object-capability RPC layer
(question/answer tables, promise pipelining, cancellation).  This file
embeds that core, component by component, and proves the documented
properties about the embedding.
-/

namespace Zap

/-- Modelled from the spec: the error taxonomy of §7 (the repository ships no
implementation of it; the variants are the ones the documentation names). -/
inductive Err where
  | OutOfBounds
  | TraversalLimitExceeded
  | NestingLimitExceeded
  | PrematureEof
  | ResourceExceeded
  | Disconnected
  deriving DecidableEq, Repr

/-! ## Wire pointers and bounds validation (§4.2) -/

/-- Modelled from the spec: the decoded fields of a struct wire pointer — a
signed word offset from the pointer's own location plus the data-word and
pointer-word counts of the target (§3, §6); the repository contains no
pointer codec. -/
structure StructPointer where
  offset : Int
  dataWords : Nat
  ptrWords : Nat
  deriving DecidableEq, Repr

/-- Modelled from the spec: resolving a struct pointer located at word `loc`
of a segment of `segLen` words.  The target range must lie wholly inside the
segment, otherwise decoding fails with `OutOfBounds` (§4.2, §8). -/
def resolveStructPointer (segLen loc : Nat) (p : StructPointer) :
    Except Err (Nat × Nat) :=
  let target : Int := (loc : Int) + 1 + p.offset
  if 0 ≤ target ∧ target.toNat + (p.dataWords + p.ptrWords) ≤ segLen then
    .ok (target.toNat, p.dataWords + p.ptrWords)
  else
    .error .OutOfBounds

/-- Modelled from the spec: bounds-checked access to a word of a segment;
reading past a segment's valid length fails with `OutOfBounds` (§4.1). -/
def readWord (seg : List Nat) (i : Nat) : Except Err Nat :=
  match seg.get? i with
  | some w => .ok w
  | none => .error .OutOfBounds

/-! ## Field descriptors, defaults and schema evolution (§3, §4.3) -/

/-- Modelled from the spec: a field descriptor produced by schema
compilation — a data-section word offset together with the per-field default
pattern that is XORed onto the raw wire value (§3, §4.3). -/
structure FieldDescriptor where
  offset : Nat
  defaultMask : Nat
  deriving DecidableEq, Repr

/-- Modelled from the spec: reading a data-section field applies the default
mask by XOR to the stored word; a field lying beyond the wire data's data
section reads the all-zero wire value, so it decodes to the declared default
(§4.3). -/
def getField (dataSec : List Nat) (f : FieldDescriptor) : Nat :=
  (dataSec.getD f.offset 0) ^^^ f.defaultMask

/-- Modelled from the spec: reading every field of a schema, in declaration
order, out of one struct's data section (§4.3). -/
def readStructFields (schema : List FieldDescriptor) (dataSec : List Nat) :
    List Nat :=
  schema.map (getField dataSec)

/-! ## Union discriminants and `NotInSchema` (§4.3, §7) -/

/-- Modelled from the spec: the outcome of reading a union discriminant or an
enum value — either an ordinal known to the reader's schema, or the
distinguishable `NotInSchema` outcome carrying the raw ordinal.  It is a
legitimate result in its own type, not a decode `Err` (§4.3, §7). -/
inductive WhichOutcome where
  | known (ordinal : Nat)
  | notInSchema (raw : Nat)
  deriving DecidableEq, Repr

/-- Modelled from the spec: `which` reads the unsigned 16-bit discriminant
stored in the struct's data section and checks it against the ordinals known
to the reader's schema (§3, §4.3). -/
def which (knownOrdinals : List Nat) (dataSec : List Nat) (discOffset : Nat) :
    WhichOutcome :=
  let raw := dataSec.getD discOffset 0 % 65536
  if raw ∈ knownOrdinals then .known raw else .notInSchema raw

/-! ## Theorems: bounds safety, schema evolution, union discriminants -/

/-- Claim C3: a wire pointer whose decoded offset or size fields would
reference memory outside the segment fails to resolve with `OutOfBounds`, a
successful resolution only ever denotes an in-bounds word range, and reading
a word index past the segment's valid length fails with `OutOfBounds`. -/
theorem pointer_bounds_safety (segLen loc : Nat) (p : StructPointer) :
    (¬ (0 ≤ (loc : Int) + 1 + p.offset ∧
        ((loc : Int) + 1 + p.offset).toNat + (p.dataWords + p.ptrWords) ≤ segLen) →
      resolveStructPointer segLen loc p = .error .OutOfBounds) ∧
    (∀ t sz, resolveStructPointer segLen loc p = .ok (t, sz) →
      t + sz ≤ segLen) ∧
    (∀ seg : List Nat, seg.length ≤ loc → readWord seg loc = .error .OutOfBounds) := by
  refine ⟨fun h => ?_, fun t sz h => ?_, fun seg h => ?_⟩
  · simp only [resolveStructPointer, if_neg h]
  · by_cases hc : 0 ≤ (loc : Int) + 1 + p.offset ∧
        ((loc : Int) + 1 + p.offset).toNat + (p.dataWords + p.ptrWords) ≤ segLen
    · simp only [resolveStructPointer, if_pos hc] at h
      cases h
      exact hc.2
    · simp [resolveStructPointer, if_neg hc] at h
  · have hn : seg.get? loc = none := List.get?_eq_none.2 h
    simp only [readWord]
    rw [hn]

/-- Claim C3 witness. -/
theorem pointer_bounds_safety_witness :
    resolveStructPointer 4 0 ⟨0, 3, 2⟩ = .error .OutOfBounds ∧
    readWord [7, 7] 2 = .error .OutOfBounds := by
  refine ⟨(pointer_bounds_safety 4 0 ⟨0, 3, 2⟩).1 (by decide), ?_⟩
  exact (pointer_bounds_safety 4 2 ⟨0, 0, 0⟩).2.2 [7, 7] (by decide)

/-- Claim C6: re-reading a struct with a superset schema (new trailing fields
whose offsets lie at or beyond the wire data's data section) yields every
original field unchanged and every new field equal to its declared default,
the all-zero wire value XORed with the per-field default pattern. -/
theorem schema_evolution_defaults (old new : List FieldDescriptor)
    (dataSec : List Nat) (h : ∀ f ∈ new, dataSec.length ≤ f.offset) :
    readStructFields (old ++ new) dataSec =
      readStructFields old dataSec ++ new.map (fun f => f.defaultMask) := by
  unfold readStructFields
  rw [List.map_append]
  congr 1
  refine List.map_congr_left (fun f hf => ?_)
  unfold getField
  rw [List.getD_eq_default _ _ (h f hf), Nat.zero_xor]

/-- Claim C6 witness. -/
theorem schema_evolution_defaults_witness :
    readStructFields ([⟨0, 0⟩, ⟨1, 5⟩] ++ [⟨2, 9⟩]) [123, 5] =
      readStructFields [⟨0, 0⟩, ⟨1, 5⟩] [123, 5] ++
        (([⟨2, 9⟩] : List FieldDescriptor)).map (fun f => f.defaultMask) :=
  schema_evolution_defaults [⟨0, 0⟩, ⟨1, 5⟩] [⟨2, 9⟩] [123, 5] (by decide)

/-- Claim C7: reading a union discriminant or enum whose stored 16-bit
ordinal is unknown to the reader's schema yields the distinguishable
`notInSchema` outcome carrying the raw ordinal — a value of `WhichOutcome`,
never a decode `Err` — while a known ordinal yields `known`. -/
theorem which_not_in_schema (knownOrdinals dataSec : List Nat)
    (discOffset : Nat) :
    (dataSec.getD discOffset 0 % 65536 ∉ knownOrdinals →
      which knownOrdinals dataSec discOffset =
        .notInSchema (dataSec.getD discOffset 0 % 65536)) ∧
    (dataSec.getD discOffset 0 % 65536 ∈ knownOrdinals →
      which knownOrdinals dataSec discOffset =
        .known (dataSec.getD discOffset 0 % 65536)) := by
  constructor
  · intro h
    simp only [which]
    rw [if_neg h]
  · intro h
    simp only [which]
    rw [if_pos h]

/-- Claim C7 witness. -/
theorem which_not_in_schema_witness :
    which [0, 1, 2] [65541] 0 = .notInSchema 5 ∧
    which [0, 1, 2] [65538] 0 = .known 2 := by
  constructor
  · exact (which_not_in_schema [0, 1, 2] [65541] 0).1 (by decide)
  · exact (which_not_in_schema [0, 1, 2] [65538] 0).2 (by decide)

/-! ## Traversal limit (§4.2, §8) -/

/-- Modelled from the spec: one word of a message as the Reader's walk sees
it — empty, a primitive value, a far-pointer hop to another word, or a
branch into two nested objects (§3, §4.2). -/
inductive Node where
  | null
  | leaf (val : Nat)
  | far (target : Nat)
  | branch (left right : Nat)
  deriving DecidableEq, Repr

/-- Modelled from the spec: walking a Reader tree.  Every pointer-decode step
consumes one word from a single cumulative traversal budget that is threaded
through the whole walk (the remaining budget is returned and handed to the
next step); an exhausted budget fails with `TraversalLimitExceeded` (§4.2). -/
def walk (seg : List Node) (budget loc : Nat) : Except Err (Nat × Nat) :=
  match budget with
  | 0 => .error .TraversalLimitExceeded
  | b + 1 =>
    match seg.get? loc with
    | none => .error .OutOfBounds
    | some .null => .ok (0, b)
    | some (.leaf v) => .ok (v, b)
    | some (.far t) => walk seg b t
    | some (.branch l r) =>
      match walk seg b l with
      | .ok (v₁, rem₁) =>
        match walk seg (min rem₁ b) r with
        | .ok (v₂, rem₂) => .ok (v₁ + v₂, rem₂)
        | .error e => .error e
      | .error e => .error e
termination_by budget
decreasing_by
  · exact Nat.lt_succ_self b
  · exact Nat.lt_succ_self b
  · exact Nat.lt_succ_of_le (Nat.min_le_right _ _)

/-- Modelled from the spec: following `n` far-pointer hops from `loc`; `none`
once a non-far word (or an out-of-range index) is reached (§4.2). -/
def farIterate (seg : List Node) : Nat → Nat → Option Nat
  | 0, loc => some loc
  | n + 1, loc =>
    match seg.get? loc with
    | some (.far t) => farIterate seg n t
    | _ => none

/-- A location from which the far-pointer chain never reaches a non-far word:
the walk from it can never complete, however large the budget. -/
def InfiniteFarChain (seg : List Node) (loc : Nat) : Prop :=
  ∀ n, (farIterate seg n loc).isSome

/-- The walk fails immediately on an exhausted budget. -/
theorem walk_zero (seg : List Node) (loc : Nat) :
    walk seg 0 loc = .error .TraversalLimitExceeded := by
  rw [walk]

/-- The walk fails with `OutOfBounds` on an out-of-range location. -/
theorem walk_none (seg : List Node) (b loc : Nat)
    (hg : seg.get? loc = none) : walk seg (b + 1) loc = .error .OutOfBounds := by
  rw [walk, hg]

/-- Walking a null word consumes one budget word. -/
theorem walk_null (seg : List Node) (b loc : Nat)
    (hg : seg.get? loc = some .null) : walk seg (b + 1) loc = .ok (0, b) := by
  rw [walk, hg]

/-- Walking a leaf word consumes one budget word and yields its value. -/
theorem walk_leaf (seg : List Node) (b loc v : Nat)
    (hg : seg.get? loc = some (.leaf v)) : walk seg (b + 1) loc = .ok (v, b) := by
  rw [walk, hg]

/-- A far hop consumes one budget word and continues at the target. -/
theorem walk_far (seg : List Node) (b loc t : Nat)
    (hg : seg.get? loc = some (.far t)) : walk seg (b + 1) loc = walk seg b t := by
  rw [walk, hg]

/-- A branch consumes one budget word and threads the remaining budget from
the left child into the right child. -/
theorem walk_branch (seg : List Node) (b loc l r : Nat)
    (hg : seg.get? loc = some (.branch l r)) :
    walk seg (b + 1) loc =
      match walk seg b l with
      | .ok (v₁, rem₁) =>
        match walk seg (min rem₁ b) r with
        | .ok (v₂, rem₂) => .ok (v₁ + v₂, rem₂)
        | .error e => .error e
      | .error e => .error e := by
  rw [walk, hg]

/-- The walk has one canonical word cost per location: a successful walk at
some budget fixes a cost `c`, every budget of at least `c` succeeds with the
same value and exactly `c` words consumed, and every smaller budget fails
with `TraversalLimitExceeded`. -/
theorem walk_cost (seg : List Node) :
    ∀ budget loc v rem, walk seg budget loc = .ok (v, rem) →
      ∃ c, budget = rem + c ∧
        ∀ b, walk seg b loc =
          if c ≤ b then .ok (v, b - c) else .error .TraversalLimitExceeded := by
  intro budget
  induction budget using Nat.strong_induction_on with
  | _ budget ih =>
    intro loc v rem h
    match budget with
    | 0 => rw [walk_zero] at h; exact absurd h (by simp)
    | b + 1 =>
      match hg : seg.get? loc with
      | none => rw [walk_none seg b loc hg] at h; exact absurd h (by simp)
      | some .null =>
        rw [walk_null seg b loc hg] at h
        simp only [Except.ok.injEq, Prod.mk.injEq] at h
        obtain ⟨rfl, rfl⟩ := h
        refine ⟨1, by omega, fun b' => ?_⟩
        match b' with
        | 0 => rw [walk_zero, if_neg (by omega)]
        | b'' + 1 =>
          rw [walk_null seg b'' loc hg, if_pos (by omega)]
          rfl
      | some (.leaf w) =>
        rw [walk_leaf seg b loc w hg] at h
        simp only [Except.ok.injEq, Prod.mk.injEq] at h
        obtain ⟨rfl, rfl⟩ := h
        refine ⟨1, by omega, fun b' => ?_⟩
        match b' with
        | 0 => rw [walk_zero, if_neg (by omega)]
        | b'' + 1 =>
          rw [walk_leaf seg b'' loc w hg, if_pos (by omega)]
          rfl
      | some (.far t) =>
        rw [walk_far seg b loc t hg] at h
        obtain ⟨c, hc, hall⟩ := ih b (Nat.lt_succ_self b) t v rem h
        refine ⟨c + 1, by omega, fun b' => ?_⟩
        match b' with
        | 0 => rw [walk_zero, if_neg (by omega)]
        | b'' + 1 =>
          rw [walk_far seg b'' loc t hg, hall b'']
          by_cases hle : c ≤ b''
          · rw [if_pos hle, if_pos (by omega)]
            have he : b'' - c = b'' + 1 - (c + 1) := by omega
            rw [he]
          · rw [if_neg hle, if_neg (by omega)]
      | some (.branch l r) =>
        rw [walk_branch seg b loc l r hg] at h
        match hl : walk seg b l with
        | .error e => rw [hl] at h; exact absurd h (by simp)
        | .ok (v₁, rem₁) =>
          simp only [hl] at h
          obtain ⟨c₁, hc₁, hall₁⟩ := ih b (Nat.lt_succ_self b) l v₁ rem₁ hl
          have hrem₁ : min rem₁ b = rem₁ := Nat.min_eq_left (by omega)
          rw [hrem₁] at h
          match hr : walk seg rem₁ r with
          | .error e => rw [hr] at h; exact absurd h (by simp)
          | .ok (v₂, rem₂) =>
            simp only [hr] at h
            obtain ⟨c₂, hc₂, hall₂⟩ :=
              ih rem₁ (by omega) r v₂ rem₂ hr
            simp only [Except.ok.injEq, Prod.mk.injEq] at h
            obtain ⟨rfl, rfl⟩ := h
            refine ⟨c₁ + c₂ + 1, by omega, fun b' => ?_⟩
            match b' with
            | 0 => rw [walk_zero, if_neg (by omega)]
            | b'' + 1 =>
              rw [walk_branch seg b'' loc l r hg, hall₁ b'']
              by_cases h₁ : c₁ ≤ b''
              · rw [if_pos h₁]
                dsimp only
                have hmin : min (b'' - c₁) b'' = b'' - c₁ :=
                  Nat.min_eq_left (by omega)
                rw [hmin, hall₂ (b'' - c₁)]
                by_cases h₂ : c₂ ≤ b'' - c₁
                · rw [if_pos h₂, if_pos (by omega)]
                  dsimp only
                  have he : b'' - c₁ - c₂ = b'' + 1 - (c₁ + c₂ + 1) := by
                    omega
                  rw [he]
                · rw [if_neg h₂, if_neg (by omega)]
              · rw [if_neg h₁, if_neg (by omega)]

/-- A far chain that never exits cannot be walked at any budget. -/
theorem walk_far_chain (seg : List Node) :
    ∀ budget loc, InfiniteFarChain seg loc →
      walk seg budget loc = .error .TraversalLimitExceeded := by
  intro budget
  induction budget with
  | zero => intro loc _; exact walk_zero seg loc
  | succ b ih =>
    intro loc hchain
    have h1 := hchain (0 + 1)
    match hg : seg.get? loc with
    | none => rw [farIterate, hg] at h1; simp at h1
    | some .null => rw [farIterate, hg] at h1; simp at h1
    | some (.leaf w) => rw [farIterate, hg] at h1; simp at h1
    | some (.branch l r) => rw [farIterate, hg] at h1; simp at h1
    | some (.far t) =>
      rw [walk_far seg b loc t hg]
      refine ih t (fun n => ?_)
      have hn := hchain (n + 1)
      rw [farIterate, hg] at hn
      simpa using hn

/-- Claim C4: every pointer-decode step of the Reader walk consumes from one
cumulative traversal-limit word budget — a successful walk at budget `b` with
`rem` left fixes its word cost at `b - rem`, and any budget below that cost
makes the walk fail with `TraversalLimitExceeded`; a message whose far-pointer
chain never terminates makes the (always-terminating) walk fail with
`TraversalLimitExceeded` at every budget rather than loop. -/
theorem traversal_budget_enforced (seg : List Node) (budget loc : Nat) :
    (∀ v rem, walk seg budget loc = .ok (v, rem) →
      rem ≤ budget ∧
        ∀ b, b < budget - rem →
          walk seg b loc = .error .TraversalLimitExceeded) ∧
    (InfiniteFarChain seg loc →
      walk seg budget loc = .error .TraversalLimitExceeded) := by
  constructor
  · intro v rem h
    obtain ⟨c, hc, hall⟩ := walk_cost seg budget loc v rem h
    refine ⟨by omega, fun b hb => ?_⟩
    rw [hall b, if_neg (by omega)]
  · exact walk_far_chain seg budget loc

/-- The one-word self-loop is an infinite far chain. -/
theorem selfLoopChain : InfiniteFarChain [Node.far 0] 0 := by
  intro n
  induction n with
  | zero => rw [farIterate]; rfl
  | succ k ih => rw [farIterate]; exact ih

/-- Claim C4 witness. -/
theorem traversal_budget_enforced_witness :
    walk [Node.leaf 7] 0 0 = .error .TraversalLimitExceeded ∧
    walk [Node.far 0] 3 0 = .error .TraversalLimitExceeded := by
  constructor
  · exact ((traversal_budget_enforced [Node.leaf 7] 5 0).1 7 4
      (walk_leaf [Node.leaf 7] 4 0 7 rfl)).2 0 (by decide)
  · exact (traversal_budget_enforced [Node.far 0] 3 0).2 selfLoopChain

/-! ## RPC connection: promise pipelining (§4.6) -/

/-- Modelled from the spec: the result of one RPC method call — a data word
together with the index of the result capability embedded in the result
struct (§3, §4.6); the repository ships no RPC layer. -/
structure RetVal where
  data : Nat
  cap : Nat
  deriving DecidableEq, Repr

/-- Modelled from the spec: a capability implementation, the behavior of one
local object's method from argument to result (§3, §4.5). -/
def Impl : Type := Nat → RetVal

/-- Modelled from the spec: the target of a Call message — a concrete index
into the receiver's capability table, or a promised answer: the result
capability of an outstanding question's pipeline (§4.6, §6). -/
inductive CallTarget where
  | imported (index : Nat)
  | promisedAnswer (qid : Nat)
  deriving DecidableEq, Repr

/-- Modelled from the spec: a Call message's question id, target and
parameter (§6). -/
structure Call where
  qid : Nat
  target : CallTarget
  arg : Nat
  deriving DecidableEq, Repr

/-- Modelled from the spec: dispatching one call at the receiver — an
imported target indexes the capability table directly; a promised answer
resolves through the answer table of already-returned questions to that
answer's result capability (§4.5, §4.6). -/
def dispatch (impls : List Impl) (answers : List (Nat × RetVal))
    (t : CallTarget) (arg : Nat) : Option RetVal :=
  match t with
  | .imported i => (impls.get? i).map (fun f => f arg)
  | .promisedAnswer q =>
    match answers.lookup q with
    | some r => (impls.get? r.cap).map (fun f => f arg)
    | none => none

/-- Modelled from the spec: the receiver processes the calls of one
connection in arrival order, recording each answered question so that later
pipelined calls can resolve through it (§4.6, §5). -/
def runCalls (impls : List Impl) (answers : List (Nat × RetVal)) :
    List Call → List (Nat × Option RetVal)
  | [] => []
  | c :: rest =>
    let res := dispatch impls answers c.target c.arg
    let answers' :=
      match res with
      | some r => (c.qid, r) :: answers
      | none => answers
    (c.qid, res) :: runCalls impls answers' rest

/-- Claim C5: pipelining is result-equivalent to sequential calling — sending
call B against the promised (not yet returned) result capability of call A in
the same batch produces the same result for B as awaiting A's Return `retA`
and then sending B against A's concrete result capability `retA.cap`. -/
theorem pipelining_result_equivalence (impls : List Impl)
    (ca p q qa qb : Nat) (retA : RetVal)
    (hA : dispatch impls [] (.imported ca) p = some retA) (hne : qa ≠ qb) :
    (runCalls impls []
        [⟨qa, .imported ca, p⟩, ⟨qb, .promisedAnswer qa, q⟩]).lookup qb =
      (runCalls impls []
        [⟨qa, .imported ca, p⟩, ⟨qb, .imported retA.cap, q⟩]).lookup qb := by
  have hbeq : (qb == qa) = false := by
    simp [Ne.symm hne]
  have hA' : (impls.get? ca).map (fun f => f p) = some retA := by
    simpa [dispatch] using hA
  simp only [runCalls, dispatch, List.lookup, hbeq, hA', beq_self_eq_true]

/-- Claim C5 witness. -/
theorem pipelining_result_equivalence_witness :
    (runCalls [fun a => ⟨a + 1, 1⟩, fun a => ⟨a * 2, 0⟩] []
        [⟨0, .imported 0, 5⟩, ⟨1, .promisedAnswer 0, 3⟩]).lookup 1 =
      (runCalls [fun a => ⟨a + 1, 1⟩, fun a => ⟨a * 2, 0⟩] []
        [⟨0, .imported 0, 5⟩, ⟨1, .imported 1, 3⟩]).lookup 1 :=
  pipelining_result_equivalence [fun a => ⟨a + 1, 1⟩, fun a => ⟨a * 2, 0⟩]
    0 5 3 0 1 ⟨6, 1⟩ rfl (by decide)

/-! ## RPC connection: cancellation (§4.6, §8) -/

/-- Modelled from the spec: the client-side state of one question slot —
still pending, or resolved by an arrived Return (§3, §4.6). -/
inductive QState where
  | pending
  | returned (result : Nat)
  deriving DecidableEq, Repr

/-- Modelled from the spec: the per-connection client bookkeeping — the
question table as a dense array of optional slots, plus the record of Finish
messages sent (§4.6, §9). -/
structure ConnState where
  questions : List (Option QState)
  finishesSent : List Nat
  deriving DecidableEq, Repr

/-- Modelled from the spec: dropping a pending call before its Return has
arrived records a Finish for its question id and releases the slot (§4.6,
§8). -/
def dropCall (s : ConnState) (qid : Nat) : ConnState :=
  match s.questions.get? qid with
  | some (some .pending) =>
    { questions := s.questions.set qid none
      finishesSent := qid :: s.finishesSent }
  | _ => s

/-- Modelled from the spec: an arriving Return resolves its question only if
the id still names a pending slot; a Return for a released slot is not
processed (§4.6, §8). -/
def processReturn (s : ConnState) (qid result : Nat) : ConnState :=
  match s.questions.get? qid with
  | some (some .pending) =>
    { questions := s.questions.set qid (some (.returned result))
      finishesSent := s.finishesSent }
  | _ => s

/-- Claim C9: dropping a pending call records a Finish for its question id
and releases the slot, and a Return for that question id arriving afterwards
is not processed — it leaves the connection state unchanged. -/
theorem cancellation_finish_release (s : ConnState) (qid result : Nat)
    (h : s.questions.get? qid = some (some .pending)) :
    qid ∈ (dropCall s qid).finishesSent ∧
    (dropCall s qid).questions.get? qid = some none ∧
    processReturn (dropCall s qid) qid result = dropCall s qid := by
  obtain ⟨hlt, -⟩ := List.get?_eq_some.1 h
  have hdrop : dropCall s qid =
      { questions := s.questions.set qid none
        finishesSent := qid :: s.finishesSent } := by
    rw [dropCall, h]
  have hslot : (s.questions.set qid none).get? qid = some none :=
    List.get?_set_eq_of_lt none (by simpa using hlt)
  refine ⟨?_, ?_, ?_⟩
  · rw [hdrop]
    exact List.mem_cons_self qid s.finishesSent
  · rw [hdrop]
    exact hslot
  · rw [hdrop, processReturn]
    simp only [hslot]

/-- Claim C9 witness. -/
theorem cancellation_finish_release_witness :
    0 ∈ (dropCall ⟨[some .pending], []⟩ 0).finishesSent ∧
    (dropCall ⟨[some .pending], []⟩ 0).questions.get? 0 = some none ∧
    processReturn (dropCall ⟨[some .pending], []⟩ 0) 0 42 =
      dropCall ⟨[some .pending], []⟩ 0 :=
  cancellation_finish_release ⟨[some .pending], []⟩ 0 42 rfl

/-! ## Message codec: flat framing (§4.4, §6) -/

/-- Binding a successful `Except` step runs the continuation. -/
theorem ok_bind {α β : Type} (a : α) (f : α → Except Err β) :
    (Except.ok a >>= f) = f a := rfl

/-- Binding a failed `Except` step propagates the error. -/
theorem error_bind {α β : Type} (e : Err) (f : α → Except Err β) :
    ((Except.error e : Except Err α) >>= f) = Except.error e := rfl

/-- Mapping over a successful `Except` applies the function. -/
theorem map_ok {α β : Type} (a : α) (f : α → β) :
    (Except.ok a : Except Err α).map f = .ok (f a) := rfl

/-- Mapping over a failed `Except` propagates the error. -/
theorem map_error {α β : Type} (e : Err) (f : α → β) :
    (Except.error e : Except Err α).map f = .error e := rfl

/-- Modelled from the spec: little-endian 4-byte encoding of a 32-bit value
(§6); the repository ships no codec. -/
def putU32 (n : Nat) : List Nat :=
  [n % 256, n / 256 % 256, n / 65536 % 256, n / 16777216 % 256]

/-- Modelled from the spec: decoding a little-endian 4-byte group (§6). -/
def getU32 (bs : List Nat) : Nat :=
  match bs with
  | [b0, b1, b2, b3] => b0 + 256 * b1 + 65536 * b2 + 16777216 * b3
  | _ => 0

/-- Modelled from the spec: the segment table — segment count minus one as a
u32, each segment's size in words as a u32, padded with one zero u32 up to a
word boundary when the number of table entries is odd (§6). -/
def segmentTable (m : List (List Nat)) : List Nat :=
  putU32 (m.length - 1) ++
    (m.map (fun s => putU32 (s.length / 8))).flatten ++
    (if m.length % 2 = 0 then List.replicate 4 0 else [])

/-- Modelled from the spec: `write_message` — the segment table followed by
each segment's raw bytes (§4.4, §6). -/
def write_message (m : List (List Nat)) : List Nat :=
  segmentTable m ++ m.flatten

/-- Modelled from the spec: reading an exact number of bytes from the
stream; hitting end of stream mid-read fails with `PrematureEof` (§4.4). -/
def readExact (n : Nat) (bs : List Nat) : Except Err (List Nat × List Nat) :=
  if n ≤ bs.length then .ok (bs.take n, bs.drop n) else .error .PrematureEof

/-- Modelled from the spec: reading one little-endian u32 (§6). -/
def readU32 (bs : List Nat) : Except Err (Nat × List Nat) :=
  (readExact 4 bs).map (fun p => (getU32 p.1, p.2))

/-- Modelled from the spec: reading the table's per-segment word counts
(§6). -/
def readSegSizes : Nat → List Nat → Except Err (List Nat × List Nat)
  | 0, bs => .ok ([], bs)
  | k + 1, bs => do
    let (n, r) ← readU32 bs
    let (ns, r') ← readSegSizes k r
    return (n :: ns, r')

/-- Modelled from the spec: reading the segments' bytes, one segment of the
tabled word count per entry (§4.4, §6). -/
def readSegs : List Nat → List Nat → Except Err (List (List Nat) × List Nat)
  | [], bs => .ok ([], bs)
  | n :: ns, bs => do
    let (s, r) ← readExact (8 * n) bs
    let (ss, r') ← readSegs ns r
    return (s :: ss, r')

/-- Modelled from the spec: `read_message` — parse the segment table, skip
the padding u32 when the number of table entries is odd, then read each
segment (§4.4). -/
def read_message (bs : List Nat) :
    Except Err (List (List Nat) × List Nat) := do
  let (c1, r1) ← readU32 bs
  let (sizes, r2) ← readSegSizes (c1 + 1) r1
  let (_, r3) ← readExact (if (c1 + 1) % 2 = 0 then 4 else 0) r2
  let (segs, r4) ← readSegs sizes r3
  return (segs, r4)

/-- Modelled from the spec: `try_read_message` — a clean end of stream
before any byte of a new message yields `none` (not an error); otherwise the
message is read, and a stream that ends mid-message fails with
`PrematureEof` (§4.4). -/
def try_read_message (bs : List Nat) :
    Except Err (Option (List (List Nat) × List Nat)) :=
  if bs = [] then .ok none
  else
    match read_message bs with
    | .ok mr => .ok (some mr)
    | .error e => .error e

/-- Modelled from the spec: the conditions the wire format imposes on a
well-formed message — at least one segment, word-aligned segment lengths,
and table entries representable as u32 (§3, §6). -/
def ValidMessage (m : List (List Nat)) : Prop :=
  m ≠ [] ∧ m.length - 1 < 4294967296 ∧
    ∀ s ∈ m, s.length % 8 = 0 ∧ s.length / 8 < 4294967296

instance : DecidablePred ValidMessage := fun m => by
  unfold ValidMessage
  infer_instance

/-- A u32 below `2^32` survives the byte round trip. -/
theorem getU32_putU32 (n : Nat) (h : n < 4294967296) :
    getU32 (putU32 n) = n := by
  simp only [putU32, getU32]
  omega

/-- Reading exactly the length of a known prefix returns that prefix. -/
theorem readExact_append (l r : List Nat) :
    readExact l.length (l ++ r) = .ok (l, r) := by
  simp [readExact, List.take_left, List.drop_left]

/-- Reading zero bytes consumes nothing. -/
theorem readExact_zero (bs : List Nat) : readExact 0 bs = .ok ([], bs) := by
  simp [readExact]

/-- Reading back an encoded u32 returns it and the rest of the stream. -/
theorem readU32_putU32 (n : Nat) (h : n < 4294967296) (r : List Nat) :
    readU32 (putU32 n ++ r) = .ok (n, r) := by
  have h4 : (4 : Nat) = (putU32 n).length := rfl
  rw [readU32, h4, readExact_append, map_ok, getU32_putU32 n h]

/-- Reading back an encoded size table returns the sizes and the rest. -/
theorem readSegSizes_append (ns : List Nat) (h : ∀ n ∈ ns, n < 4294967296)
    (r : List Nat) :
    readSegSizes ns.length ((ns.map putU32).flatten ++ r) = .ok (ns, r) := by
  induction ns generalizing r with
  | nil => rw [List.length_nil, readSegSizes]; rfl
  | cons n ns ih =>
    rw [List.length_cons, readSegSizes, List.map_cons, List.flatten_cons,
      List.append_assoc, readU32_putU32 n (h n (by simp)), ok_bind]
    dsimp only
    rw [ih (fun x hx => h x (by simp [hx])) r, ok_bind]
    rfl

/-- Reading back the written segments returns them and the rest. -/
theorem readSegs_append (m : List (List Nat))
    (h : ∀ s ∈ m, s.length % 8 = 0) (r : List Nat) :
    readSegs (m.map (fun s => s.length / 8)) (m.flatten ++ r) = .ok (m, r) := by
  induction m generalizing r with
  | nil => rw [List.map_nil, readSegs]; rfl
  | cons s m ih =>
    have hdvd : 8 * (s.length / 8) = s.length :=
      Nat.mul_div_cancel' (Nat.dvd_of_mod_eq_zero (h s (by simp)))
    rw [List.map_cons, List.flatten_cons, List.append_assoc, readSegs, hdvd,
      readExact_append, ok_bind]
    dsimp only
    rw [ih (fun x hx => h x (by simp [hx])) r, ok_bind]
    rfl

/-- The flat codec round-trips a valid message and consumes exactly its
bytes. -/
theorem read_write_message (m : List (List Nat)) (h : ValidMessage m) :
    read_message (write_message m) = .ok (m, []) := by
  obtain ⟨hne, hcount, hsegs⟩ := h
  have hc : m.length - 1 + 1 = m.length :=
    Nat.succ_pred_eq_of_pos (List.length_pos.2 hne)
  have hmm : m.map (fun s => putU32 (s.length / 8)) =
      (m.map (fun s => s.length / 8)).map putU32 := by
    rw [List.map_map]
    rfl
  have hml : (m.map (fun s => s.length / 8)).length = m.length := by simp
  have hsz : ∀ n ∈ m.map (fun s => s.length / 8), n < 4294967296 := by
    intro n hn
    obtain ⟨s, hs, rfl⟩ := List.mem_map.1 hn
    exact (hsegs s hs).2
  have hs2 : ∀ X : List Nat,
      readSegSizes m.length
          (((m.map (fun s => s.length / 8)).map putU32).flatten ++ X) =
        .ok (m.map (fun s => s.length / 8), X) := by
    intro X
    have := readSegSizes_append (m.map (fun s => s.length / 8)) hsz X
    rwa [hml] at this
  rw [write_message, segmentTable, List.append_assoc, List.append_assoc,
    read_message, readU32_putU32 _ hcount, ok_bind]
  dsimp only
  rw [hc, hmm, hs2, ok_bind]
  dsimp only
  by_cases hpar : m.length % 2 = 0
  · rw [if_pos hpar, if_pos hpar]
    have hre : ∀ Y : List Nat,
        readExact 4 (List.replicate 4 (0 : Nat) ++ Y) =
          .ok (List.replicate 4 0, Y) := by
      intro Y
      have := readExact_append (List.replicate 4 (0 : Nat)) Y
      simpa using this
    rw [hre, ok_bind]
    dsimp only
    rw [← List.append_nil m.flatten,
      readSegs_append m (fun s hs => (hsegs s hs).1) [], ok_bind]
    rfl
  · rw [if_neg hpar, if_neg hpar, List.nil_append, readExact_zero, ok_bind]
    dsimp only
    rw [← List.append_nil m.flatten,
      readSegs_append m (fun s hs => (hsegs s hs).1) [], ok_bind]
    rfl

/-! ## End-of-stream behavior of the codec (§4.4) -/

/-- The byte length of an encoded size table is four bytes per entry. -/
theorem length_flatten_putU32 (ns : List Nat) :
    ((ns.map putU32).flatten).length = 4 * ns.length := by
  induction ns with
  | nil => rfl
  | cons n ns ih =>
    rw [List.map_cons, List.flatten_cons, List.length_append, ih]
    simp [putU32]
    omega

/-- Reading an exact count out of a truncated stream: complete if the cut is
at or beyond the requested prefix, `PrematureEof` otherwise. -/
theorem readExact_take (l r : List Nat) (k : Nat)
    (hk : k ≤ l.length + r.length) :
    readExact l.length ((l ++ r).take k) =
      if l.length ≤ k then .ok (l, r.take (k - l.length))
      else .error .PrematureEof := by
  by_cases hle : l.length ≤ k
  · rw [if_pos hle]
    have ht : (l ++ r).take k = l ++ r.take (k - l.length) := by
      rw [List.take_append_eq_append_take, List.take_of_length_le hle]
    rw [ht]
    exact readExact_append l (r.take (k - l.length))
  · rw [if_neg hle]
    have hlt : ((l ++ r).take k).length = k := by
      rw [List.length_take, List.length_append]
      omega
    rw [readExact, if_neg (by omega)]

/-- Reading a u32 out of a truncated stream. -/
theorem readU32_take (n : Nat) (hn : n < 4294967296) (r : List Nat) (k : Nat)
    (hk : k ≤ 4 + r.length) :
    readU32 ((putU32 n ++ r).take k) =
      if 4 ≤ k then .ok (n, r.take (k - 4)) else .error .PrematureEof := by
  have h4 : (putU32 n).length = 4 := rfl
  rw [readU32, ← h4, readExact_take _ _ _ (by omega), h4]
  by_cases hle : 4 ≤ k
  · rw [if_pos hle, if_pos hle, map_ok, getU32_putU32 n hn]
  · rw [if_neg hle, if_neg hle, map_error]

/-- Reading a size table out of a truncated stream. -/
theorem readSegSizes_take (ns : List Nat) (h : ∀ x ∈ ns, x < 4294967296)
    (r : List Nat) (k : Nat) (hk : k ≤ 4 * ns.length + r.length) :
    readSegSizes ns.length (((ns.map putU32).flatten ++ r).take k) =
      if 4 * ns.length ≤ k then .ok (ns, r.take (k - 4 * ns.length))
      else .error .PrematureEof := by
  induction ns generalizing r k with
  | nil =>
    rw [List.map_nil]
    simp only [List.flatten_nil, List.nil_append, List.length_nil,
      Nat.mul_zero, Nat.zero_le, if_pos, Nat.sub_zero]
    rw [readSegSizes]
  | cons n ns ih =>
    have hfl : ((ns.map putU32).flatten).length = 4 * ns.length :=
      length_flatten_putU32 ns
    rw [List.length_cons] at hk
    rw [List.length_cons, readSegSizes, List.map_cons, List.flatten_cons,
      List.append_assoc,
      readU32_take n (h n (by simp)) _ k
        (by rw [List.length_append, hfl]; omega)]
    by_cases h4 : 4 ≤ k
    · rw [if_pos h4, ok_bind]
      dsimp only
      rw [ih (fun x hx => h x (by simp [hx])) r (k - 4) (by omega)]
      by_cases hrest : 4 * ns.length ≤ k - 4
      · rw [if_pos hrest, ok_bind, if_pos (by omega)]
        have harith : k - 4 - 4 * ns.length = k - 4 * (ns.length + 1) := by
          omega
        rw [harith]
        rfl
      · rw [if_neg hrest, error_bind, if_neg (by omega)]
    · rw [if_neg h4, error_bind, if_neg (by omega)]

/-- Reading the segments out of a stream truncated strictly before their
end always fails with `PrematureEof`. -/
theorem readSegs_take (m : List (List Nat)) (h : ∀ s ∈ m, s.length % 8 = 0)
    (k : Nat) (hk : k < m.flatten.length) :
    readSegs (m.map (fun s => s.length / 8)) (m.flatten.take k) =
      .error .PrematureEof := by
  induction m generalizing k with
  | nil => simp at hk
  | cons s m ih =>
    have hdvd : 8 * (s.length / 8) = s.length :=
      Nat.mul_div_cancel' (Nat.dvd_of_mod_eq_zero (h s (by simp)))
    rw [List.flatten_cons] at hk ⊢
    rw [List.length_append] at hk
    rw [List.map_cons, readSegs, hdvd,
      readExact_take s m.flatten k (by omega)]
    by_cases hle : s.length ≤ k
    · rw [if_pos hle, ok_bind]
      dsimp only
      rw [ih (fun x hx => h x (by simp [hx])) (k - s.length) (by omega),
        error_bind]
    · rw [if_neg hle, error_bind]

/-- Parsing any strict, nonempty prefix of a written valid message fails
with `PrematureEof`. -/
theorem read_message_take (m : List (List Nat)) (h : ValidMessage m)
    (k : Nat) (hk : k < (write_message m).length) :
    read_message ((write_message m).take k) = .error .PrematureEof := by
  obtain ⟨hne, hcount, hsegs⟩ := h
  have hc : m.length - 1 + 1 = m.length :=
    Nat.succ_pred_eq_of_pos (List.length_pos.2 hne)
  have hmm : m.map (fun s => putU32 (s.length / 8)) =
      (m.map (fun s => s.length / 8)).map putU32 := by
    rw [List.map_map]
    rfl
  have hml : (m.map (fun s => s.length / 8)).length = m.length := by simp
  have hsz : ∀ n ∈ m.map (fun s => s.length / 8), n < 4294967296 := by
    intro n hn
    obtain ⟨s, hs, rfl⟩ := List.mem_map.1 hn
    exact (hsegs s hs).2
  have hfl : (((m.map (fun s => s.length / 8)).map putU32).flatten).length =
      4 * m.length := by
    rw [length_flatten_putU32, hml]
  have hpadlen :
      (if m.length % 2 = 0 then List.replicate 4 (0 : Nat) else []).length =
        if m.length % 2 = 0 then 4 else 0 := by
    by_cases hpar : m.length % 2 = 0 <;> simp [hpar]
  have hlen : (write_message m).length =
      4 + 4 * m.length +
        (if m.length % 2 = 0 then 4 else 0) + m.flatten.length := by
    rw [write_message, segmentTable, hmm]
    simp only [List.length_append, hfl, hpadlen]
    simp [putU32]
  rw [hlen] at hk
  rw [write_message, segmentTable, List.append_assoc, List.append_assoc,
    read_message, hmm,
    readU32_take _ hcount _ k
      (by simp only [List.length_append, hfl, hpadlen]; omega)]
  by_cases h4 : 4 ≤ k
  · rw [if_pos h4, ok_bind]
    dsimp only
    rw [hc]
    have hs2 : ∀ (X : List Nat) (k' : Nat), k' ≤ 4 * m.length + X.length →
        readSegSizes m.length
            ((((m.map (fun s => s.length / 8)).map putU32).flatten ++
              X).take k') =
          if 4 * m.length ≤ k' then
            .ok (m.map (fun s => s.length / 8), X.take (k' - 4 * m.length))
          else .error .PrematureEof := by
      intro X k' hk'
      have := readSegSizes_take (m.map (fun s => s.length / 8)) hsz X k'
        (by rw [hml]; omega)
      rwa [hml] at this
    rw [hs2 _ (k - 4) (by rw [List.length_append, hpadlen]; omega)]
    by_cases hrest : 4 * m.length ≤ k - 4
    · rw [if_pos hrest, ok_bind]
      dsimp only
      by_cases hpar : m.length % 2 = 0
      · rw [if_pos hpar] at hk ⊢
        rw [if_pos hpar]
        have hre : ∀ (Y : List Nat) (k' : Nat), k' ≤ 4 + Y.length →
            readExact 4 ((List.replicate 4 (0 : Nat) ++ Y).take k') =
              if 4 ≤ k' then .ok (List.replicate 4 0, Y.take (k' - 4))
              else .error .PrematureEof := by
          intro Y k' hk'
          have h4r : (List.replicate 4 (0 : Nat)).length = 4 := by simp
          have hx := readExact_take (List.replicate 4 (0 : Nat)) Y k'
            (by rw [h4r]; omega)
          rwa [h4r] at hx
        rw [hre m.flatten _ (by omega)]
        by_cases hpad : 4 ≤ k - 4 - 4 * m.length
        · rw [if_pos hpad, ok_bind]
          dsimp only
          rw [readSegs_take m (fun s hs => (hsegs s hs).1) _ (by omega),
            error_bind]
        · rw [if_neg hpad, error_bind]
      · rw [if_neg hpar] at hk ⊢
        rw [if_neg hpar, List.nil_append, readExact_zero, ok_bind]
        dsimp only
        rw [readSegs_take m (fun s hs => (hsegs s hs).1) _ (by omega),
          error_bind]
    · rw [if_neg hrest, error_bind]
  · rw [if_neg h4, error_bind]

/-- Claim C8: `try_read_message` distinguishes end-of-stream positions — at
clean end of stream before any byte of a new message it returns `none`
without error, and a stream that ends after at least one byte of a message
but before its end fails with `PrematureEof`. -/
theorem try_read_eof_distinction (m : List (List Nat)) (k : Nat)
    (h : ValidMessage m) (hpos : 0 < k)
    (hk : k < (write_message m).length) :
    try_read_message [] = .ok none ∧
    try_read_message ((write_message m).take k) = .error .PrematureEof := by
  constructor
  · rw [try_read_message, if_pos rfl]
  · have hlen : ((write_message m).take k).length = k := by
      rw [List.length_take]
      omega
    have hne : (write_message m).take k ≠ [] := by
      intro hcon
      rw [hcon] at hlen
      simp at hlen
      omega
    rw [try_read_message, if_neg hne, read_message_take m h k hk]

/-- Claim C8 witness. -/
theorem try_read_eof_distinction_witness :
    try_read_message [] = .ok none ∧
    try_read_message ((write_message [[0, 0, 0, 0, 0, 0, 0, 0]]).take 5) =
      .error .PrematureEof :=
  try_read_eof_distinction [[0, 0, 0, 0, 0, 0, 0, 0]] 5 (by decide)
    (by decide) (by decide)

/-! ## Packed transform (§4.4, §6, §8) -/

/-- Modelled from the spec: split a byte stream into its 8-byte words
(§6). -/
def toWords : List Nat → List (List Nat)
  | [] => []
  | b :: bs => ((b :: bs).take 8) :: toWords ((b :: bs).drop 8)
termination_by bs => bs.length
decreasing_by
  simp only [List.length_drop, List.length_cons]
  omega

/-- Modelled from the spec: the tag byte of one word — bit `i` is set
exactly when byte `i` of the word is nonzero (§6). -/
def tagOf : List Nat → Nat
  | [] => 0
  | b :: bs => (if b = 0 then 0 else 1) + 2 * tagOf bs

/-- The number of set bits among the low `k` bits of a tag. -/
def ones : Nat → Nat → Nat
  | 0, _ => 0
  | k + 1, t => t % 2 + ones k (t / 2)

/-- Rebuild one word of `k` bytes from its tag and the stream holding its
nonzero bytes. -/
def buildWord : Nat → Nat → List Nat → List Nat
  | 0, _, _ => []
  | k + 1, tag, bs =>
    if tag % 2 = 1 then
      bs.headD 0 :: buildWord k (tag / 2) bs.tail
    else
      0 :: buildWord k (tag / 2) bs

/-- The length of the run of leading words satisfying `p`, capped. -/
def countRun (p : List Nat → Bool) : List (List Nat) → Nat → Nat
  | _, 0 => 0
  | [], _ + 1 => 0
  | w :: ws, cap + 1 => if p w then 1 + countRun p ws cap else 0

/-- Modelled from the spec: the word-level packer — one tag byte per word
followed by the word's nonzero bytes; a zero word is followed by the count
of further zero words elided from the output, and an all-nonzero word by its
eight bytes, the count of following all-nonzero words and those words'
bytes verbatim (§4.4, §6). -/
def packWords : List (List Nat) → List Nat
  | [] => []
  | w :: ws =>
    if tagOf w = 0 then
      0 :: countRun (fun u => tagOf u == 0) ws 255 ::
        packWords (ws.drop (countRun (fun u => tagOf u == 0) ws 255))
    else if tagOf w = 255 then
      255 :: (w ++ countRun (fun u => tagOf u == 255) ws 255 ::
          (ws.take (countRun (fun u => tagOf u == 255) ws 255)).flatten) ++
        packWords (ws.drop (countRun (fun u => tagOf u == 255) ws 255))
    else
      tagOf w :: (w.filter (fun b => b != 0) ++ packWords ws)
termination_by ws => ws.length
decreasing_by
  · simp only [List.length_drop, List.length_cons]
    omega
  · simp only [List.length_drop, List.length_cons]
    omega
  · simp only [List.length_cons]
    omega

/-- Modelled from the spec: the word-level unpacker — reads a tag byte and
then the bytes its bits call for; tag `0x00` is followed by the count of
further zero words to synthesize, tag `0xFF` by the word's eight bytes, a
count and that many verbatim words; a stream that ends early yields `none`
(§4.4, §6). -/
def unpackGo : List Nat → Option (List (List Nat))
  | [] => some []
  | tag :: rest =>
    if tag = 0 then
      match rest with
      | [] => none
      | n :: rest' =>
        (unpackGo rest').map
          (fun ws => List.replicate (n + 1) (List.replicate 8 0) ++ ws)
    else if tag = 255 then
      if 9 + 8 * rest.getD 8 0 ≤ rest.length then
        (unpackGo (rest.drop (9 + 8 * rest.getD 8 0))).map
          (fun ws =>
            rest.take 8 ::
              (toWords ((rest.drop 9).take (8 * rest.getD 8 0)) ++ ws))
      else none
    else
      if ones 8 tag ≤ rest.length then
        (unpackGo (rest.drop (ones 8 tag))).map
          (fun ws => buildWord 8 tag rest :: ws)
      else none
termination_by bs => bs.length
decreasing_by
  · simp only [List.length_cons]
    omega
  · simp only [List.length_drop, List.length_cons]
    omega
  · simp only [List.length_drop, List.length_cons]
    omega

/-- Modelled from the spec: the packed byte transform (§4.4, §6). -/
def pack (bs : List Nat) : List Nat := packWords (toWords bs)

/-- Modelled from the spec: the inverse packed byte transform (§4.4, §6). -/
def unpack (bs : List Nat) : Option (List Nat) :=
  (unpackGo bs).map List.flatten

/-- All words of a word list have the format's word size. -/
def WFwords (ws : List (List Nat)) : Prop := ∀ w ∈ ws, w.length = 8

/-- Splitting a nonempty stream peels one word off the front. -/
theorem toWords_cons (b : Nat) (bs : List Nat) :
    toWords (b :: bs) = ((b :: bs).take 8) :: toWords ((b :: bs).drop 8) := by
  rw [toWords]

/-- Reassembling the words of a stream gives the stream back. -/
theorem flatten_toWords (bs : List Nat) : (toWords bs).flatten = bs := by
  have H : ∀ n (bs : List Nat), bs.length ≤ n → (toWords bs).flatten = bs := by
    intro n
    induction n with
    | zero =>
      intro bs hb
      match bs with
      | [] => rw [toWords]; rfl
      | b :: bs => simp at hb
    | succ n ih =>
      intro bs hb
      match bs with
      | [] => rw [toWords]; rfl
      | b :: bs =>
        simp only [List.length_cons] at hb
        rw [toWords_cons, List.flatten_cons,
          ih _ (by simp only [List.length_drop, List.length_cons]; omega),
          List.take_append_drop]
  exact H bs.length bs le_rfl

/-- A word-aligned stream splits into full 8-byte words. -/
theorem toWords_wf (bs : List Nat) (h : bs.length % 8 = 0) :
    WFwords (toWords bs) := by
  have H : ∀ n (bs : List Nat), bs.length ≤ n → bs.length % 8 = 0 →
      WFwords (toWords bs) := by
    intro n
    induction n with
    | zero =>
      intro bs hb _
      match bs with
      | [] => rw [toWords]; intro w hw; simp at hw
      | b :: bs => simp at hb
    | succ n ih =>
      intro bs hb hmod
      match bs with
      | [] => rw [toWords]; intro w hw; simp at hw
      | b :: bs =>
        simp only [List.length_cons] at hb hmod
        rw [toWords_cons]
        intro w hw
        rcases List.mem_cons.1 hw with hw | hw
        · subst hw
          rw [List.length_take]
          simp only [List.length_cons]
          omega
        · exact ih ((b :: bs).drop 8)
            (by simp only [List.length_drop, List.length_cons]; omega)
            (by simp only [List.length_drop, List.length_cons]; omega) w hw
  exact H bs.length bs le_rfl h

/-- Splitting the concatenation of full words gives the words back. -/
theorem toWords_flatten (ws : List (List Nat)) (h : WFwords ws) :
    toWords ws.flatten = ws := by
  induction ws with
  | nil => rw [List.flatten_nil, toWords]
  | cons w ws ih =>
    have hw : w.length = 8 := h w (by simp)
    obtain ⟨b, w', rfl⟩ : ∃ b w', w = b :: w' := by
      match w with
      | [] => simp at hw
      | b :: w' => exact ⟨b, w', rfl⟩
    rw [List.flatten_cons, List.cons_append, toWords_cons, ← List.cons_append]
    have ht : ((b :: w') ++ ws.flatten).take 8 = b :: w' := by
      rw [List.take_append_eq_append_take, List.take_of_length_le (by omega),
        show (8 : Nat) - (b :: w').length = 0 by omega, List.take_zero,
        List.append_nil]
    have hd : ((b :: w') ++ ws.flatten).drop 8 = ws.flatten := by
      rw [List.drop_append_eq_append_drop, List.drop_of_length_le (by omega),
        show (8 : Nat) - (b :: w').length = 0 by omega, List.drop_zero,
        List.nil_append]
    rw [ht, hd, ih (fun u hu => h u (by simp [hu]))]

/-- The concatenation of `n` full words holds `8 * n` bytes. -/
theorem length_flatten_wf (ws : List (List Nat)) (h : WFwords ws) :
    ws.flatten.length = 8 * ws.length := by
  induction ws with
  | nil => rfl
  | cons w ws ih =>
    rw [List.flatten_cons, List.length_append, h w (by simp),
      ih (fun u hu => h u (by simp [hu])), List.length_cons]
    omega

/-- The tag of a word is bounded by two to its length. -/
theorem tagOf_lt (w : List Nat) : tagOf w < 2 ^ w.length := by
  induction w with
  | nil => rw [tagOf]; simp
  | cons b bs ih =>
    rw [tagOf, List.length_cons, pow_succ]
    by_cases hb : b = 0 <;> simp [hb] <;> omega

/-- A word tags to zero exactly when all its bytes are zero. -/
theorem tagOf_eq_zero_iff (w : List Nat) :
    tagOf w = 0 ↔ ∀ b ∈ w, b = 0 := by
  induction w with
  | nil => simp [tagOf]
  | cons b bs ih =>
    rw [tagOf]
    by_cases hb : b = 0
    · subst hb
      rw [if_pos rfl]
      constructor
      · intro hh x hx
        rcases List.mem_cons.1 hx with rfl | hx
        · rfl
        · exact (ih.1 (by omega)) x hx
      · intro hall
        have ht : tagOf bs = 0 :=
          ih.2 (fun x hx => hall x (List.mem_cons_of_mem _ hx))
        omega
    · rw [if_neg hb]
      constructor
      · intro hh
        exact absurd hh (by omega)
      · intro hall
        exact absurd (hall b (by simp)) hb

/-- A word tags to the all-set pattern exactly when all its bytes are
nonzero. -/
theorem tagOf_eq_allset_iff (w : List Nat) :
    tagOf w = 2 ^ w.length - 1 ↔ ∀ b ∈ w, b ≠ 0 := by
  induction w with
  | nil => simp [tagOf]
  | cons b bs ih =>
    have hlt := tagOf_lt bs
    have hpos : 0 < 2 ^ bs.length := pow_pos (by omega) bs.length
    rw [tagOf, List.length_cons, pow_succ]
    constructor
    · intro htag x hx
      by_cases hb : b = 0
      · rw [if_pos hb] at htag
        exact absurd htag (by omega)
      · rw [if_neg hb] at htag
        rcases List.mem_cons.1 hx with rfl | hx
        · exact hb
        · exact ih.1 (by omega) x hx
    · intro hall
      have hb : b ≠ 0 := hall b (by simp)
      rw [if_neg hb]
      have ht : tagOf bs = 2 ^ bs.length - 1 :=
        ih.2 (fun x hx => hall x (by simp [hx]))
      omega

/-- A zero-tagged full word is the zero word. -/
theorem eq_zero_word (w : List Nat) (hw : w.length = 8) (ht : tagOf w = 0) :
    w = List.replicate 8 0 := by
  refine List.eq_replicate.2 ⟨hw, fun b hb => (tagOf_eq_zero_iff w).1 ht b hb⟩

/-- The number of set tag bits equals the number of surviving bytes. -/
theorem ones_tagOf (w : List Nat) :
    ones w.length (tagOf w) = (w.filter (fun b => b != 0)).length := by
  induction w with
  | nil => rfl
  | cons b bs ih =>
    rw [List.length_cons, ones, tagOf, List.filter_cons]
    by_cases hb : b = 0
    · rw [if_pos hb]
      have h2 : (0 + 2 * tagOf bs) % 2 = 0 := by omega
      have h3 : (0 + 2 * tagOf bs) / 2 = tagOf bs := by omega
      rw [h2, h3]
      simp only [hb, bne_self_eq_false, if_neg]
      simp [ih]
    · rw [if_neg hb]
      have h2 : (1 + 2 * tagOf bs) % 2 = 1 := by omega
      have h3 : (1 + 2 * tagOf bs) / 2 = tagOf bs := by omega
      rw [h2, h3]
      have hbne : (b != 0) = true := by simpa using hb
      rw [if_pos hbne, List.length_cons, ih]
      omega

/-- Rebuilding from a word's tag and its nonzero bytes recovers the word. -/
theorem buildWord_filter (w rest : List Nat) :
    buildWord w.length (tagOf w) (w.filter (fun b => b != 0) ++ rest) = w := by
  induction w generalizing rest with
  | nil => rfl
  | cons b bs ih =>
    rw [List.length_cons, tagOf, List.filter_cons]
    by_cases hb : b = 0
    · rw [if_pos hb, if_neg (show ¬ ((b != 0) = true) by simp [hb])]
      have h2 : (0 + 2 * tagOf bs) % 2 = 0 := by omega
      have h3 : (0 + 2 * tagOf bs) / 2 = tagOf bs := by omega
      rw [buildWord, if_neg (by omega), h3, ih rest]
      rw [hb]
    · rw [if_neg hb, if_pos (show (b != 0) = true by simp [hb]),
        List.cons_append]
      have h2 : (1 + 2 * tagOf bs) % 2 = 1 := by omega
      have h3 : (1 + 2 * tagOf bs) / 2 = tagOf bs := by omega
      rw [buildWord, if_pos h2, List.headD_cons, List.tail_cons, h3, ih rest]

/-- After rebuilding a word, the unconsumed stream is exactly the suffix. -/
theorem drop_ones_filter (w rest : List Nat) :
    (w.filter (fun b => b != 0) ++ rest).drop (ones w.length (tagOf w)) =
      rest := by
  rw [ones_tagOf, List.drop_left]

/-- An all-set tag consumes a full word verbatim. -/
theorem buildWord_allset (k : Nat) (w rest : List Nat) (hw : w.length = k) :
    buildWord k (2 ^ k - 1) (w ++ rest) = w := by
  induction k generalizing w rest with
  | zero =>
    obtain rfl : w = [] := List.length_eq_zero.1 hw
    rw [buildWord]
  | succ k ih =>
    obtain ⟨b, w', rfl⟩ : ∃ b w', w = b :: w' := by
      match w, hw with
      | b :: w', _ => exact ⟨b, w', rfl⟩
    have hpos : 0 < 2 ^ k := pow_pos (by omega) k
    have h2 : (2 ^ (k + 1) - 1) % 2 = 1 := by rw [pow_succ]; omega
    have h3 : (2 ^ (k + 1) - 1) / 2 = 2 ^ k - 1 := by rw [pow_succ]; omega
    rw [List.cons_append, buildWord, if_pos h2, List.headD_cons,
      List.tail_cons, h3, ih w' rest (by simpa using hw)]

/-- An all-set tag has all its bits counted. -/
theorem ones_allset (k : Nat) : ones k (2 ^ k - 1) = k := by
  induction k with
  | zero => rfl
  | succ k ih =>
    have hpos : 0 < 2 ^ k := pow_pos (by omega) k
    have h2 : (2 ^ (k + 1) - 1) % 2 = 1 := by rw [pow_succ]; omega
    have h3 : (2 ^ (k + 1) - 1) / 2 = 2 ^ k - 1 := by rw [pow_succ]; omega
    rw [ones, h2, h3, ih]
    omega

/-- A counted run never exceeds the list. -/
theorem countRun_le (p : List Nat → Bool) (ws : List (List Nat)) (cap : Nat) :
    countRun p ws cap ≤ ws.length := by
  induction ws generalizing cap with
  | nil =>
    match cap with
    | 0 => rw [countRun]; exact Nat.zero_le _
    | cap + 1 => rw [countRun]; exact Nat.zero_le _
  | cons w ws ih =>
    match cap with
    | 0 => rw [countRun]; omega
    | cap + 1 =>
      rw [countRun, List.length_cons]
      by_cases hp : p w
      · rw [if_pos hp]
        have := ih cap
        omega
      · rw [if_neg hp]
        omega

/-- Every word inside a counted run satisfies the run's predicate. -/
theorem countRun_take (p : List Nat → Bool) (ws : List (List Nat))
    (cap : Nat) : ∀ w ∈ ws.take (countRun p ws cap), p w = true := by
  induction ws generalizing cap with
  | nil =>
    intro w hw
    simp at hw
  | cons w ws ih =>
    match cap with
    | 0 =>
      rw [countRun]
      intro u hu
      simp at hu
    | cap + 1 =>
      rw [countRun]
      by_cases hp : p w
      · rw [if_pos hp]
        intro u hu
        rcases List.mem_cons.1 (by simpa [List.take_cons] using hu) with rfl | hu
        · exact hp
        · exact ih cap u hu
      · rw [if_neg hp]
        intro u hu
        simp at hu

/-- Packing the empty word list yields the empty stream. -/
theorem packWords_nil : packWords [] = [] := by rw [packWords]

/-- Packing a zero word emits the zero tag and the elided-run count. -/
theorem packWords_zero (w : List Nat) (ws : List (List Nat))
    (h : tagOf w = 0) :
    packWords (w :: ws) =
      0 :: countRun (fun u => tagOf u == 0) ws 255 ::
        packWords (ws.drop (countRun (fun u => tagOf u == 0) ws 255)) := by
  rw [packWords, if_pos h]

/-- Packing an all-nonzero word emits the all-set tag, the word, the
verbatim-run count and the run's bytes. -/
theorem packWords_255 (w : List Nat) (ws : List (List Nat))
    (h0 : tagOf w ≠ 0) (h : tagOf w = 255) :
    packWords (w :: ws) =
      255 :: (w ++ countRun (fun u => tagOf u == 255) ws 255 ::
          (ws.take (countRun (fun u => tagOf u == 255) ws 255)).flatten) ++
        packWords (ws.drop (countRun (fun u => tagOf u == 255) ws 255)) := by
  rw [packWords, if_neg h0, if_pos h]

/-- Packing a mixed word emits its tag and its nonzero bytes. -/
theorem packWords_tag (w : List Nat) (ws : List (List Nat))
    (h0 : tagOf w ≠ 0) (h255 : tagOf w ≠ 255) :
    packWords (w :: ws) =
      tagOf w :: (w.filter (fun b => b != 0) ++ packWords ws) := by
  rw [packWords, if_neg h0, if_neg h255]

/-- Unpacking the empty stream yields no words. -/
theorem unpackGo_nil : unpackGo [] = some [] := by rw [unpackGo]

/-- Unpacking a zero tag synthesizes the counted run of zero words. -/
theorem unpackGo_zero (n : Nat) (rest : List Nat) :
    unpackGo (0 :: n :: rest) =
      (unpackGo rest).map
        (fun ws => List.replicate (n + 1) (List.replicate 8 0) ++ ws) := by
  rw [unpackGo.eq_def]
  dsimp only
  rw [if_pos rfl]

/-- Unpacking an all-set tag copies the word and the verbatim run. -/
theorem unpackGo_255 (rest : List Nat)
    (h : 9 + 8 * rest.getD 8 0 ≤ rest.length) :
    unpackGo (255 :: rest) =
      (unpackGo (rest.drop (9 + 8 * rest.getD 8 0))).map
        (fun ws =>
          rest.take 8 ::
            (toWords ((rest.drop 9).take (8 * rest.getD 8 0)) ++ ws)) := by
  rw [unpackGo.eq_def]
  dsimp only
  rw [if_neg (by omega), if_pos rfl, if_pos h]

/-- Unpacking a mixed tag rebuilds one word from its nonzero bytes. -/
theorem unpackGo_tag (tag : Nat) (rest : List Nat) (h0 : tag ≠ 0)
    (h255 : tag ≠ 255) (hlen : ones 8 tag ≤ rest.length) :
    unpackGo (tag :: rest) =
      (unpackGo (rest.drop (ones 8 tag))).map
        (fun ws => buildWord 8 tag rest :: ws) := by
  rw [unpackGo.eq_def]
  dsimp only
  rw [if_neg h0, if_neg h255, if_pos hlen]

/-- The word-level packer is exactly inverted by the word-level unpacker on
full words. -/
theorem unpackGo_packWords (ws : List (List Nat)) (h : WFwords ws) :
    unpackGo (packWords ws) = some ws := by
  have H : ∀ n (ws : List (List Nat)), ws.length ≤ n → WFwords ws →
      unpackGo (packWords ws) = some ws := by
    intro n
    induction n with
    | zero =>
      intro ws hl _
      match ws with
      | [] => rw [packWords_nil, unpackGo_nil]
      | w :: ws => simp at hl
    | succ n ih =>
      intro ws hl hwf
      match ws with
      | [] => rw [packWords_nil, unpackGo_nil]
      | w :: ws =>
        simp only [List.length_cons] at hl
        have hw8 : w.length = 8 := hwf w (by simp)
        have hwf' : WFwords ws := fun u hu => hwf u (by simp [hu])
        by_cases h0 : tagOf w = 0
        · set c := countRun (fun u => tagOf u == 0) ws 255 with hc
          have hcle : c ≤ ws.length := countRun_le _ ws 255
          have hwzero : w = List.replicate 8 0 := eq_zero_word w hw8 h0
          have htake_eq : ws.take c = List.replicate c (List.replicate 8 0) := by
            refine List.eq_replicate.2
              ⟨by rw [List.length_take]; omega, fun u hu => ?_⟩
            refine eq_zero_word u (hwf' u (List.take_subset _ _ hu)) ?_
            have := countRun_take (fun u => tagOf u == 0) ws 255 u (hc ▸ hu)
            simpa using this
          rw [packWords_zero w ws h0, unpackGo_zero, ← hc,
            ih (ws.drop c) (by rw [List.length_drop]; omega)
              (fun u hu => hwf' u (List.drop_subset _ _ hu)),
            Option.map_some']
          congr 1
          rw [List.replicate_succ, List.cons_append, ← htake_eq,
            List.take_append_drop, ← hwzero]
        · by_cases h255 : tagOf w = 255
          · set c := countRun (fun u => tagOf u == 255) ws 255 with hc
            have hcle : c ≤ ws.length := countRun_le _ ws 255
            have hwfTake : WFwords (ws.take c) :=
              fun u hu => hwf' u (List.take_subset _ _ hu)
            have hflat : ((ws.take c).flatten).length = 8 * c := by
              rw [length_flatten_wf _ hwfTake, List.length_take]
              omega
            rw [packWords_255 w ws h0 h255, ← hc, List.cons_append,
              List.append_assoc, List.cons_append]
            have hgetD : (w ++ (c :: ((ws.take c).flatten ++
                packWords (ws.drop c)))).getD 8 0 = c := by
              rw [List.getD_append_right _ _ _ _ (by omega), hw8]
              rfl
            have hlen255 : 9 + 8 * (w ++ (c :: ((ws.take c).flatten ++
                  packWords (ws.drop c)))).getD 8 0 ≤
                (w ++ (c :: ((ws.take c).flatten ++
                  packWords (ws.drop c)))).length := by
              rw [hgetD]
              simp only [List.length_append, List.length_cons, hflat, hw8]
              omega
            rw [unpackGo_255 _ hlen255, hgetD]
            have htk8 : (w ++ (c :: ((ws.take c).flatten ++
                packWords (ws.drop c)))).take 8 = w := by
              rw [List.take_append_eq_append_take,
                List.take_of_length_le (by omega),
                show (8 : Nat) - w.length = 0 by omega, List.take_zero,
                List.append_nil]
            have hdrop9 : (w ++ (c :: ((ws.take c).flatten ++
                  packWords (ws.drop c)))).drop 9 =
                (ws.take c).flatten ++ packWords (ws.drop c) := by
              rw [List.drop_append_eq_append_drop,
                List.drop_of_length_le (by omega),
                show (9 : Nat) - w.length = 1 by omega, List.nil_append]
              rfl
            have htake8c : (((ws.take c).flatten ++
                  packWords (ws.drop c)).take (8 * c)) =
                (ws.take c).flatten := by
              rw [List.take_append_eq_append_take,
                List.take_of_length_le (by omega),
                show 8 * c - ((ws.take c).flatten).length = 0 by omega,
                List.take_zero, List.append_nil]
            have hdropAll : (w ++ (c :: ((ws.take c).flatten ++
                  packWords (ws.drop c)))).drop (9 + 8 * c) =
                packWords (ws.drop c) := by
              rw [List.drop_append_eq_append_drop,
                List.drop_of_length_le (by omega),
                show 9 + 8 * c - w.length = 8 * c + 1 by omega,
                List.nil_append, List.drop_succ_cons, ← hflat,
                List.drop_left]
            rw [htk8, hdrop9, htake8c, hdropAll,
              ih (ws.drop c) (by rw [List.length_drop]; omega)
                (fun u hu => hwf' u (List.drop_subset _ _ hu)),
              Option.map_some']
            congr 1
            rw [toWords_flatten _ hwfTake, List.take_append_drop]
          · rw [packWords_tag w ws h0 h255]
            have hlen : ones 8 (tagOf w) ≤
                (w.filter (fun b => b != 0) ++ packWords ws).length := by
              rw [← hw8, ones_tagOf, List.length_append]
              omega
            rw [unpackGo_tag (tagOf w) _ h0 h255 hlen]
            have hbw : buildWord 8 (tagOf w)
                (w.filter (fun b => b != 0) ++ packWords ws) = w := by
              rw [← hw8]
              exact buildWord_filter w (packWords ws)
            have hdrop : (w.filter (fun b => b != 0) ++
                  packWords ws).drop (ones 8 (tagOf w)) = packWords ws := by
              rw [← hw8]
              exact drop_ones_filter w (packWords ws)
            rw [hbw, hdrop, ih ws (by omega) hwf', Option.map_some']
  exact H ws.length ws le_rfl h

/-- Claim C2: the packed byte transform is exactly invertible — for every
byte sequence of word-aligned length, unpacking its packing returns exactly
the original bytes. -/
theorem pack_unpack_exact (bs : List Nat) (h : bs.length % 8 = 0) :
    unpack (pack bs) = some bs := by
  rw [pack, unpack, unpackGo_packWords (toWords bs) (toWords_wf bs h),
    Option.map_some', flatten_toWords]

/-- Claim C2 witness. -/
theorem pack_unpack_exact_witness :
    unpack (pack [1, 0, 2, 0, 0, 0, 0, 3, 0, 0, 0, 0, 0, 0, 0, 0]) =
      some [1, 0, 2, 0, 0, 0, 0, 3, 0, 0, 0, 0, 0, 0, 0, 0] :=
  pack_unpack_exact [1, 0, 2, 0, 0, 0, 0, 3, 0, 0, 0, 0, 0, 0, 0, 0]
    (by decide)

/-! ## Message codec: packed framing (§4.4) -/

/-- Modelled from the spec: the packed `write_message` — the packed byte
transform applied on top of the flat encoding (§4.4). -/
def write_message_packed (m : List (List Nat)) : List Nat :=
  pack (write_message m)

/-- Modelled from the spec: the packed `read_message` — undo the packed
transform, then read the flat encoding; a stream whose packing is cut short
fails with `PrematureEof` (§4.4). -/
def read_message_packed (bs : List Nat) :
    Except Err (List (List Nat) × List Nat) :=
  match unpack bs with
  | some flat => read_message flat
  | none => .error .PrematureEof

/-- Word-aligned segments concatenate to a word-aligned byte run. -/
theorem flatten_length_mod (m : List (List Nat))
    (h : ∀ s ∈ m, s.length % 8 = 0) : m.flatten.length % 8 = 0 := by
  induction m with
  | nil => rfl
  | cons s m ih =>
    rw [List.flatten_cons, List.length_append]
    have h1 := h s (by simp)
    have h2 := ih (fun x hx => h x (by simp [hx]))
    omega

/-- The flat encoding of a word-aligned message is word-aligned. -/
theorem write_message_length_mod (m : List (List Nat))
    (h : ∀ s ∈ m, s.length % 8 = 0) : (write_message m).length % 8 = 0 := by
  have hmm : m.map (fun s => putU32 (s.length / 8)) =
      (m.map (fun s => s.length / 8)).map putU32 := by
    rw [List.map_map]
    rfl
  have hfl : (m.map (fun s => putU32 (s.length / 8))).flatten.length =
      4 * m.length := by
    rw [hmm, length_flatten_putU32, List.length_map]
  have hflat8 := flatten_length_mod m h
  rw [write_message, segmentTable]
  simp only [List.length_append, hfl]
  by_cases hpar : m.length % 2 = 0
  · rw [if_pos hpar]
    simp only [List.length_replicate, putU32, List.length_cons,
      List.length_nil]
    omega
  · rw [if_neg hpar]
    simp only [List.length_nil, putU32, List.length_cons]
    omega

/-- Claim C1: deserializing the serialization of a valid message yields the
message again, consuming the whole stream — for both the flat codec and the
packed codec. -/
theorem roundtrip_flat_and_packed (m : List (List Nat)) (h : ValidMessage m) :
    read_message (write_message m) = .ok (m, []) ∧
    read_message_packed (write_message_packed m) = .ok (m, []) := by
  refine ⟨read_write_message m h, ?_⟩
  have hu : unpack (pack (write_message m)) = some (write_message m) :=
    pack_unpack_exact _
      (write_message_length_mod m (fun s hs => (h.2.2 s hs).1))
  rw [write_message_packed, read_message_packed, hu]
  exact read_write_message m h

/-- Claim C1 witness. -/
theorem roundtrip_flat_and_packed_witness :
    read_message (write_message [[1, 2, 3, 4, 5, 6, 7, 8]]) =
      .ok ([[1, 2, 3, 4, 5, 6, 7, 8]], []) ∧
    read_message_packed (write_message_packed [[1, 2, 3, 4, 5, 6, 7, 8]]) =
      .ok ([[1, 2, 3, 4, 5, 6, 7, 8]], []) :=
  roundtrip_flat_and_packed [[1, 2, 3, 4, 5, 6, 7, 8]] (by decide)

/-! ## Copying a root struct into a fresh builder (§4.3, §9) -/

/-- Modelled from the spec: the logical value of a struct object — its data
words and its pointer slots, each slot either null or a nested struct (§3);
the repository ships no builder. -/
inductive SV where
  | mk (data : List Nat) (kids : List (Option SV))

/-- The data section of a struct value. -/
def SV.dataOf : SV → List Nat
  | .mk d _ => d

/-- The pointer section of a struct value. -/
def SV.kidsOf : SV → List (Option SV)
  | .mk _ ks => ks

/-- Modelled from the spec: one word of a message segment as the struct
codec sees it — a raw data word, a null pointer, or a struct pointer with
its relative offset and section sizes (§3, §6). -/
inductive Cell where
  | raw (v : Nat)
  | pnull
  | pstruct (off dw pw : Nat)
  deriving DecidableEq, Repr

mutual

/-- The number of words a struct value occupies once encoded. -/
def svSize : SV → Nat
  | .mk data kids => data.length + kids.length + svSizeKids kids

/-- The number of words the bodies of a pointer section occupy. -/
def svSizeKids : List (Option SV) → Nat
  | [] => 0
  | none :: rest => svSizeKids rest
  | some k :: rest => svSize k + svSizeKids rest

end

mutual

/-- The pointer-nesting depth of a struct value. -/
def svDepth : SV → Nat
  | .mk _ kids => svDepthKids kids + 1

/-- The pointer-nesting depth below a pointer section. -/
def svDepthKids : List (Option SV) → Nat
  | [] => 0
  | none :: rest => svDepthKids rest
  | some k :: rest => max (svDepth k) (svDepthKids rest)

end

mutual

/-- Modelled from the spec: encoding a struct body — the data words, then
the pointer words, then the children's bodies in order; each struct pointer
carries the word offset from the word after the pointer to its child's body
(§4.2, §6). -/
def encBody : SV → List Cell
  | .mk data kids => data.map Cell.raw ++ (encPtrs kids 0 ++ encBodies kids)

/-- Encoding a pointer section; `acc` counts the words of earlier siblings'
bodies already scheduled between the section's end and the next free word. -/
def encPtrs : List (Option SV) → Nat → List Cell
  | [], _ => []
  | none :: rest, acc => Cell.pnull :: encPtrs rest acc
  | some k :: rest, acc =>
    Cell.pstruct (rest.length + acc) (SV.dataOf k).length
        (SV.kidsOf k).length ::
      encPtrs rest (acc + svSize k)

/-- Encoding the bodies of a pointer section, in order. -/
def encBodies : List (Option SV) → List Cell
  | [] => []
  | none :: rest => encBodies rest
  | some k :: rest => encBody k ++ encBodies rest

end

/-- The data value a word denotes. -/
def cellVal : Cell → Nat
  | .raw v => v
  | _ => 0

/-- Bounds-checked access to a word of a cell segment (§4.1). -/
def getCell (seg : List Cell) (i : Nat) : Except Err Cell :=
  match seg.get? i with
  | some c => .ok c
  | none => .error .OutOfBounds

/-- Modelled from the spec: reading a struct's data section lazily from the
segment (§4.3). -/
def readData (seg : List Cell) : Nat → Nat → Except Err (List Nat)
  | _, 0 => .ok []
  | start, n + 1 => do
    let c ← getCell seg start
    let rest ← readData seg (start + 1) n
    return (cellVal c :: rest)

mutual

/-- Modelled from the spec: decoding the struct at a segment location with a
nesting-fuel bound; exhausting it fails with `NestingLimitExceeded` (§4.2,
§4.4). -/
def readStructAt (seg : List Cell) : Nat → Nat → Nat → Nat → Except Err SV
  | 0, _, _, _ => .error .NestingLimitExceeded
  | fuel + 1, start, dw, pw => do
    let data ← readData seg start dw
    let kids ← readKids seg fuel (start + dw) pw
    return (SV.mk data kids)
termination_by fuel start dw pw => (fuel, 0)

/-- Modelled from the spec: decoding a pointer section slot by slot,
following each struct pointer to its target (§4.2, §4.3). -/
def readKids (seg : List Cell) :
    Nat → Nat → Nat → Except Err (List (Option SV))
  | _, _, 0 => .ok []
  | fuel, ploc, n + 1 => do
    let c ← getCell seg ploc
    match c with
    | .pnull => do
      let rest ← readKids seg fuel (ploc + 1) n
      return (none :: rest)
    | .pstruct off dw pw => do
      let kid ← readStructAt seg fuel (ploc + 1 + off) dw pw
      let rest ← readKids seg fuel (ploc + 1) n
      return (some kid :: rest)
    | .raw _ => .error .OutOfBounds
termination_by fuel ploc n => (fuel, n + 1)

end

/-- Modelled from the spec: `set_root` — deep-copy a struct value as the
root object of a fresh single-segment builder: the root pointer word
followed by the encoded body (§4.3, §9). -/
def setRoot (sv : SV) : List Cell :=
  Cell.pstruct 0 (SV.dataOf sv).length (SV.kidsOf sv).length :: encBody sv

/-- Modelled from the spec: `get_root` — resolve the root pointer at word
zero of the first segment and decode the struct it targets (§3, §4.4). -/
def readRoot (seg : List Cell) (fuel : Nat) : Except Err SV := do
  let c ← getCell seg 0
  match c with
  | .pstruct off dw pw => readStructAt seg fuel (1 + off) dw pw
  | .pnull => return (SV.mk [] [])
  | .raw _ => .error .OutOfBounds

/-- A word the segment is known to hold reads back as itself. -/
theorem getCell_eq (seg : List Cell) (i : Nat) (c : Cell)
    (h : seg.get? i = some c) : getCell seg i = .ok c := by
  rw [getCell, h]

/-- A pointer section encodes to one word per slot. -/
theorem encPtrs_length (kids : List (Option SV)) (acc : Nat) :
    (encPtrs kids acc).length = kids.length := by
  induction kids generalizing acc with
  | nil => simp [encPtrs]
  | cons k rest ih =>
    match k with
    | none => rw [encPtrs, List.length_cons, ih, List.length_cons]
    | some k => rw [encPtrs, List.length_cons, ih, List.length_cons]

mutual

/-- A struct body encodes to exactly its size in words. -/
theorem encBody_length : ∀ sv : SV, (encBody sv).length = svSize sv
  | .mk data kids => by
    rw [encBody, svSize, List.length_append, List.length_append,
      List.length_map, encPtrs_length, encBodies_length kids]
    omega

/-- A pointer section's bodies encode to exactly their total size. -/
theorem encBodies_length :
    ∀ kids : List (Option SV), (encBodies kids).length = svSizeKids kids
  | [] => by rw [encBodies, svSizeKids, List.length_nil]
  | none :: rest => by
    rw [encBodies, svSizeKids, encBodies_length rest]
  | some k :: rest => by
    rw [encBodies, svSizeKids, List.length_append, encBody_length k,
      encBodies_length rest]

end

/-- Reading a data section whose raw words the segment holds returns those
words' values. -/
theorem readData_spec (seg : List Cell) :
    ∀ (data : List Nat) (start : Nat),
      (∀ j, j < data.length →
        seg.get? (start + j) = (data.map Cell.raw).get? j) →
      readData seg start data.length = .ok data := by
  intro data
  induction data with
  | nil => intro start _; rfl
  | cons d ds ih =>
    intro start H
    have h0 := H 0 (by simp)
    rw [Nat.add_zero, List.map_cons, List.get?_cons_zero] at h0
    rw [List.length_cons, readData, getCell_eq seg start _ h0, ok_bind]
    rw [ih (start + 1) (fun j hj => by
        have := H (j + 1) (by simpa using Nat.succ_lt_succ hj)
        rwa [List.map_cons, List.get?_cons_succ,
          show start + (j + 1) = start + 1 + j by omega] at this),
      ok_bind]
    rfl

mutual

/-- Decoding at the location of an encoded struct body recovers the struct
value. -/
theorem readStructAt_enc (sv : SV) (seg : List Cell) (start fuel : Nat)
    (hd : svDepth sv ≤ fuel)
    (H : ∀ j, j < (encBody sv).length →
      seg.get? (start + j) = (encBody sv).get? j) :
    readStructAt seg fuel start (SV.dataOf sv).length (SV.kidsOf sv).length =
      .ok sv := by
  match sv with
  | .mk data kids =>
    match fuel with
    | 0 => exact absurd hd (by rw [svDepth]; omega)
    | f + 1 =>
      rw [encBody] at H
      have hbl : (data.map Cell.raw ++
          (encPtrs kids 0 ++ encBodies kids)).length =
          data.length + (kids.length + (encBodies kids).length) := by
        simp [encPtrs_length]
      rw [SV.dataOf, SV.kidsOf, readStructAt,
        readData_spec seg data start (fun j hj => by
          rw [H j (by rw [hbl]; omega), List.get?_append
            (by rw [List.length_map]; omega)]),
        ok_bind]
      rw [readKids_enc kids seg (start + data.length) 0
        (start + data.length + kids.length) f
        (by have := hd; rw [svDepth] at this; omega)
        (by omega)
        (fun j hj => by
          rw [show start + data.length + j = start + (data.length + j) by
              omega,
            H (data.length + j) (by rw [hbl]; omega),
            List.get?_append_right (by rw [List.length_map]; omega),
            List.length_map,
            show data.length + j - data.length = j by omega,
            List.get?_append (by rw [encPtrs_length]; omega)])
        (fun j hj => by
          rw [show start + data.length + kids.length + j =
              start + (data.length + (kids.length + j)) by omega,
            H (data.length + (kids.length + j)) (by rw [hbl]; omega),
            List.get?_append_right (by rw [List.length_map]; omega),
            List.length_map,
            show data.length + (kids.length + j) - data.length =
              kids.length + j by omega,
            List.get?_append_right (by rw [encPtrs_length]; omega),
            encPtrs_length,
            show kids.length + j - kids.length = j by omega]),
        ok_bind]
      rfl

/-- Decoding a pointer section at its encoded location, with the bodies
cursor at `bodyStart`, recovers the slots. -/
theorem readKids_enc (kids : List (Option SV)) (seg : List Cell)
    (ploc acc bodyStart fuel : Nat)
    (hd : svDepthKids kids ≤ fuel)
    (hb : bodyStart = ploc + kids.length + acc)
    (Hp : ∀ j, j < kids.length →
      seg.get? (ploc + j) = (encPtrs kids acc).get? j)
    (Hb : ∀ j, j < (encBodies kids).length →
      seg.get? (bodyStart + j) = (encBodies kids).get? j) :
    readKids seg fuel ploc kids.length = .ok kids := by
  match kids with
  | [] => rw [List.length_nil, readKids]
  | none :: rest =>
    have h0 := Hp 0 (by simp)
    rw [Nat.add_zero, encPtrs, List.get?_cons_zero] at h0
    rw [List.length_cons, readKids, getCell_eq seg ploc _ h0, ok_bind]
    dsimp only
    rw [readKids_enc rest seg (ploc + 1) acc bodyStart fuel
      (by rw [svDepthKids] at hd; exact hd)
      (by rw [List.length_cons] at hb; omega)
      (fun j hj => by
        have := Hp (j + 1) (by simpa using Nat.succ_lt_succ hj)
        rwa [encPtrs, List.get?_cons_succ,
          show ploc + (j + 1) = ploc + 1 + j by omega] at this)
      (fun j hj => by
        have := Hb j (by rwa [encBodies])
        rwa [encBodies] at this),
      ok_bind]
    rfl
  | some k :: rest =>
    have h0 := Hp 0 (by simp)
    rw [Nat.add_zero, encPtrs, List.get?_cons_zero] at h0
    rw [List.length_cons, readKids, getCell_eq seg ploc _ h0, ok_bind]
    dsimp only
    have hdk : svDepth k ≤ fuel := by
      rw [svDepthKids] at hd
      omega
    have hdrest : svDepthKids rest ≤ fuel := by
      rw [svDepthKids] at hd
      omega
    rw [readStructAt_enc k seg (ploc + 1 + (rest.length + acc)) fuel hdk
      (fun j hj => by
        have hlt : (encBody k).length ≤ (encBodies (some k :: rest)).length := by
          rw [encBodies, List.length_append]
          omega
        have := Hb j (by omega)
        rw [encBodies, List.get?_append hj] at this
        rwa [show ploc + 1 + (rest.length + acc) + j =
            bodyStart + j by rw [hb, List.length_cons]; omega]),
      ok_bind]
    rw [readKids_enc rest seg (ploc + 1) (acc + svSize k)
      (bodyStart + svSize k) fuel hdrest
      (by rw [List.length_cons] at hb; omega)
      (fun j hj => by
        have := Hp (j + 1) (by simpa using Nat.succ_lt_succ hj)
        rwa [encPtrs, List.get?_cons_succ,
          show ploc + (j + 1) = ploc + 1 + j by omega] at this)
      (fun j hj => by
        have := Hb ((encBody k).length + j) (by
          rw [encBodies, List.length_append]
          omega)
        rw [encBodies, List.get?_append_right (by omega),
          show (encBody k).length + j - (encBody k).length = j by omega]
          at this
        rwa [show bodyStart + svSize k + j =
            bodyStart + ((encBody k).length + j) by
          rw [encBody_length k]; omega]),
      ok_bind]
    rfl

end

/-- Claim C10: copying a deserialized message's root struct into a fresh
builder preserves content — whenever a source segment's root decodes to the
struct value `sv`, the message whose root is set from that Reader via
`setRoot` reads back a root equal to `sv` field by field (the serialization
of the fresh message in between is the identity established for the flat
codec). -/
theorem set_root_copy_preserves (src : List Cell) (f : Nat) (sv : SV)
    (h : readRoot src f = .ok sv) :
    readRoot (setRoot sv) (svDepth sv) = .ok sv := by
  rw [setRoot, readRoot, getCell_eq _ 0 _ List.get?_cons_zero, ok_bind]
  dsimp only
  rw [show (1 : Nat) + 0 = 1 by omega]
  exact readStructAt_enc sv _ 1 (svDepth sv) le_rfl
    (fun j hj => by rw [show (1 : Nat) + j = j + 1 by omega,
      List.get?_cons_succ])

/-- Claim C10 witness. -/
theorem set_root_copy_preserves_witness :
    readRoot (setRoot (SV.mk [] [])) (svDepth (SV.mk [] [])) =
      .ok (SV.mk [] []) :=
  set_root_copy_preserves [Cell.pnull] 0 (SV.mk [] []) rfl

end Zap
